import Mathlib

set_option maxRecDepth 40000

/-!
Verification of the titancore server core against its specification.

The development shallowly embeds the parts of the code base that the
checked properties speak about:

* the SRP6 crypto core of `crates/tc-core/src/crypto/srp6.rs` together
  with the byte-key helpers of `crates/core/src/crypto/macros.rs`
  (big integers become `ℕ`/`ℤ`, `BigInt::modpow` becomes a fuelled
  binary `modpow`, SHA-1 is embedded executably over byte lists);
* the logon packet codecs of `crates/tc-server-auth/src/packets.rs`;
* the prepared-statement LRU cache of `crates/tc-core/src/database/cache.rs`
  (the `DefaultHasher` key is abstracted as the SQL string itself,
  `Instant::now()` as a logical clock that advances at every operation);
* the migration engine of `crates/tc-core/src/database/migration.rs`
  (the database is the list of `_migrations` records; schema side effects
  of the migration SQL are outside the model);
* the connection-registry broadcast of `crates/tc-core/src/server/connection.rs`
  (each handle carries the success of its bounded-channel send);
* the connection pool of `crates/tc-core/src/database/pool.rs`
  (sequential state machine; semaphore and timeouts become explicit
  oracle parameters).

Byte strings are `List ℕ` with entries below 256; multi-byte integers are
little-endian unless noted, as in the source.
-/

/-! ### Byte-string / integer conversions (`define_key_sized` helpers) -/

/-- value of a little-endian byte string (`BigInt::from_bytes_le`, `to_bigint`). -/

def natFromBytesLE : List ℕ → ℕ
  | [] => 0
  | b :: rest => b + 256 * natFromBytesLE rest

/-- `k` little-endian bytes of `n` (`From<BigInt>` writing `to_bytes_le` into a
zero-filled `k`-byte array; values below `256^k` round-trip). -/

def natToBytesLE : ℕ → ℕ → List ℕ
  | 0, _ => []
  | k + 1, n => n % 256 :: natToBytesLE k (n / 256)

/-- big-endian byte rendering, used for the SHA-1 length field and digest words. -/

def natToBytesBE (k n : ℕ) : List ℕ := (natToBytesLE k n).reverse

/-! ### SHA-1, executable over byte lists -/

/-- 2^32, the word modulus of SHA-1. -/

def mask32 : ℕ := 4294967296

/-- left-rotation of a 32-bit word, written arithmetically so the kernel can
evaluate it with ordinary `Nat` operations. -/

def rotl32 (k x : ℕ) : ℕ := (x * 2 ^ k + x / 2 ^ (32 - k)) % mask32

structure Sha1State where
  h0 : ℕ
  h1 : ℕ
  h2 : ℕ
  h3 : ℕ
  h4 : ℕ
  deriving DecidableEq

def sha1Init : Sha1State := ⟨0x67452301, 0xEFCDAB89, 0x98BADCFE, 0x10325476, 0xC3D2E1F0⟩

/-- Merkle–Damgård padding: `0x80`, zeros to 56 mod 64, 64-bit big-endian bit length. -/

def sha1Pad (msg : List ℕ) : List ℕ :=
  msg ++ [0x80] ++ List.replicate ((119 - msg.length % 64) % 64) 0
      ++ natToBytesBE 8 (8 * msg.length)

/-- big-endian 32-bit words of a byte list, four bytes at a time. -/

def beWords : List ℕ → List ℕ
  | a :: b :: c :: d :: rest => (((a * 256 + b) * 256 + c) * 256 + d) :: beWords rest
  | _ => []

/-- extend the message schedule `n` more words; `rws` holds the schedule so far,
most recent word first. -/

def extendW : ℕ → List ℕ → List ℕ
  | 0, rws => rws
  | n + 1, rws =>
      extendW n
        (rotl32 1 (rws.getD 2 0 ^^^ rws.getD 7 0 ^^^ rws.getD 13 0 ^^^ rws.getD 15 0) :: rws)

/-- 32-bit complement. -/

def not32 (x : ℕ) : ℕ := 4294967295 - x

def sha1F (t b c d : ℕ) : ℕ :=
  if t < 20 then (b &&& c) ||| (not32 b &&& d)
  else if t < 40 then b ^^^ c ^^^ d
  else if t < 60 then (b &&& c) ||| (b &&& d) ||| (c &&& d)
  else b ^^^ c ^^^ d

def sha1K (t : ℕ) : ℕ :=
  if t < 20 then 0x5A827999
  else if t < 40 then 0x6ED9EBA1
  else if t < 60 then 0x8F1BBCDC
  else 0xCA62C1D6

def sha1Round (acc : ℕ × ℕ × ℕ × ℕ × ℕ) (tw : ℕ × ℕ) : ℕ × ℕ × ℕ × ℕ × ℕ :=
  match acc, tw with
  | (a, b, c, d, e), (t, w) =>
      ((rotl32 5 a + sha1F t b c d + e + sha1K t + w) % mask32, a, rotl32 30 b, c, d)

def sha1Compress (st : Sha1State) (block : List ℕ) : Sha1State :=
  let w := (extendW 64 (beWords block).reverse).reverse
  let r := w.enum.foldl sha1Round (st.h0, st.h1, st.h2, st.h3, st.h4)
  match r with
  | (a, b, c, d, e) =>
      ⟨(st.h0 + a) % mask32, (st.h1 + b) % mask32, (st.h2 + c) % mask32,
       (st.h3 + d) % mask32, (st.h4 + e) % mask32⟩

/-- process `n` 64-byte blocks of `msg`. -/

def sha1Blocks : ℕ → List ℕ → Sha1State → Sha1State
  | 0, _, st => st
  | n + 1, msg, st => sha1Blocks n (msg.drop 64) (sha1Compress st (msg.take 64))

/-- the SHA-1 digest (20 bytes) of a byte string; checked against the published
test vectors for the empty string, for the 3-byte and for the 56-byte NIST inputs. -/

def sha1 (msg : List ℕ) : List ℕ :=
  let padded := sha1Pad msg
  let st := sha1Blocks (padded.length / 64) padded sha1Init
  natToBytesBE 4 st.h0 ++ natToBytesBE 4 st.h1 ++ natToBytesBE 4 st.h2
    ++ natToBytesBE 4 st.h3 ++ natToBytesBE 4 st.h4

/-! ### Modular exponentiation (`BigInt::modpow`) -/

/-- fuelled binary exponentiation; the fuel only bounds the recursion and is
peeled once per halving of the exponent. -/

def modpowAux : ℕ → ℕ → ℕ → ℕ → ℕ
  | 0, _, _, n => 1 % n
  | fuel + 1, b, e, n =>
      if e = 0 then 1 % n
      else
        let r := modpowAux fuel (b * b % n) (e / 2) n
        if e % 2 = 1 then r * b % n else r

/-- `b ^ e mod n` computed by binary exponentiation, as `BigUint::modpow` does. -/

def modpow (b e n : ℕ) : ℕ := modpowAux (e + 1) b e n

/-- `BigInt::modpow` with a possibly negative base and positive modulus:
num-bigint documents the result to lie in `[0, n)` and to follow `mod_floor`. -/

def intModpow (b : ℤ) (e n : ℕ) : ℤ := (modpow (b % (n : ℤ)).toNat e n : ℕ)

/-! ### SRP6 crypto core (`crates/tc-core/src/crypto/srp6.rs`)

Keys are little-endian byte strings; `define_key_constant!(LargeSafePrime, ...)`
fixes the 256-bit safe prime, `define_byte_value!` fixes `K = 3` and
`Generator = 7`. -/

def largeSafePrimeBytes : List ℕ :=
  [0xb7, 0x9b, 0x3e, 0x2a, 0x87, 0x82, 0x3c, 0xab, 0x8f, 0x5e, 0xbf, 0xbf, 0x8e, 0xb1, 0x1,
   0x8, 0x53, 0x50, 0x6, 0x29, 0x8b, 0x5b, 0xad, 0xbd, 0x5b, 0x53, 0xe1, 0x89, 0x5e, 0x64,
   0x4b, 0x89]

/-- `LargeSafePrime::default().to_bigint()`. -/

def largeSafePrime : ℕ := natFromBytesLE largeSafePrimeBytes

/-- `Generator::default().value()`. -/

def generatorValue : ℕ := 7

/-- `K::default().value()`. -/

def kValue : ℕ := 3

/-- `calculate_x`: SHA1(salt_le ‖ SHA1(username ‖ ":" ‖ password)); no case
transformation is applied to either string (58 is the ASCII colon). -/

def calculate_x (username password salt : List ℕ) : List ℕ :=
  sha1 (salt ++ sha1 (username ++ [58] ++ password))

/-- `calculate_u`: SHA1(A_le ‖ B_le). -/

def calculate_u (client_public_key server_public_key : List ℕ) : List ℕ :=
  sha1 (client_public_key ++ server_public_key)

/-- `calculate_password_verifier`: g^x mod N as a 32-byte key. -/

def calculate_password_verifier (username password salt : List ℕ) : List ℕ :=
  natToBytesLE 32
    (modpow generatorValue (natFromBytesLE (calculate_x username password salt)) largeSafePrime)

/-- `calculate_client_public_key`: A = g^a mod N. -/

def calculate_client_public_key (client_private_key : List ℕ) : List ℕ :=
  natToBytesLE 32 (modpow generatorValue (natFromBytesLE client_private_key) largeSafePrime)

/-- `calculate_server_public_key`: B = (k·v + g^b mod N) mod N. -/

def calculate_server_public_key (verifier server_private_key : List ℕ) : List ℕ :=
  natToBytesLE 32
    ((kValue * natFromBytesLE verifier
        + modpow generatorValue (natFromBytesLE server_private_key) largeSafePrime)
      % largeSafePrime)

/-- `calculate_client_s`: (B − k·(g^x mod N))^(a + u·x) mod N; the base may be
negative, `BigInt::modpow` reduces it like `mod_floor`. -/

def calculate_client_s (client_private_key server_public_key x u : List ℕ) : List ℕ :=
  natToBytesLE 32
    (intModpow
      ((natFromBytesLE server_public_key : ℤ)
        - (kValue : ℤ) * (modpow generatorValue (natFromBytesLE x) largeSafePrime : ℕ))
      (natFromBytesLE client_private_key + natFromBytesLE u * natFromBytesLE x)
      largeSafePrime).toNat

/-- `calculate_server_s`: (A · (v^u mod N))^b mod N. -/

def calculate_server_s (client_public_key server_private_key verifier u : List ℕ) : List ℕ :=
  natToBytesLE 32
    (modpow
      (natFromBytesLE client_public_key
        * modpow (natFromBytesLE verifier) (natFromBytesLE u) largeSafePrime)
      (natFromBytesLE server_private_key)
      largeSafePrime)

/-! ### Session-key interleaving (`sha1_interleaved`, `as_split_slice`) -/

/-- index of the first nonzero byte: the scanning loop
`while s[lead] == 0 { lead += 1 }` of `as_split_slice`
(`crates/core/src/crypto/macros.rs`).  The loop has no length bound, so on an
all-zero buffer it indexes past the end; that panic is modelled as `none`. -/
def countLeadingZeroBytes : List ℕ → Option ℕ
  | [] => none
  | b :: rest => if b = 0 then (countLeadingZeroBytes rest).map (· + 1) else some 0

/-- `as_split_slice`: round the number of leading zero bytes up to an even
count and drop that many bytes. -/
def as_split_slice (key : List ℕ) : Option (List ℕ) :=
  (countLeadingZeroBytes key).map fun lead =>
    key.drop (if lead % 2 ≠ 0 then lead + 1 else lead)

/-- `s.iter().enumerate().filter(|(i, _)| i % 2 == 0)` of `sha1_interleaved`. -/
def filterEvenIdx (l : List ℕ) : List ℕ :=
  (l.enum.filter fun p => p.1 % 2 = 0).map Prod.snd

/-- `s.iter().enumerate().filter(|(i, _)| i % 2 == 1)` of `sha1_interleaved`. -/
def filterOddIdx (l : List ℕ) : List ℕ :=
  (l.enum.filter fun p => p.1 % 2 = 1).map Prod.snd

/-- the interleaving loop over `g.iter().zip(h.iter())`, pushing both members
of every pair. -/
def interleaveZip : List ℕ → List ℕ → List ℕ
  | x :: xs, y :: ys => x :: y :: interleaveZip xs ys
  | _, _ => []

/-- `sha1_interleaved` of `crates/tc-core/src/crypto/srp6.rs`: split the
stripped buffer into even- and odd-position bytes, SHA-1 each half and
interleave the digests; `none` when `as_split_slice` panics. -/
def sha1_interleaved (s_key : List ℕ) : Option (List ℕ) :=
  (as_split_slice s_key).map fun s =>
    interleaveZip (sha1 (filterEvenIdx s)) (sha1 (filterOddIdx s))

/-- the claim's stripping step: repeatedly drop the leading two bytes while the
first is 0 and at least two bytes remain. -/
def stripZeroPairs : List ℕ → List ℕ
  | 0 :: _ :: rest => stripZeroPairs rest
  | l => l

/-- bytes of `l` at even indices 0, 2, 4, … (spec wording for `E`). -/
def bytesAtEvenIdx (l : List ℕ) : List ℕ :=
  (List.range ((l.length + 1) / 2)).map fun i => l.getD (2 * i) 0

/-- bytes of `l` at odd indices 1, 3, 5, … (spec wording for `F`). -/
def bytesAtOddIdx (l : List ℕ) : List ℕ :=
  (List.range (l.length / 2)).map fun i => l.getD (2 * i + 1) 0

/-- the 40-byte key `K` with `K[2i] = G[i]` and `K[2i+1] = H[i]` (spec wording). -/
def interleave40 (g h : List ℕ) : List ℕ :=
  (List.range 40).map fun j => if j % 2 = 0 then g.getD (j / 2) 0 else h.getD (j / 2) 0

/-- the session-key derivation exactly as the claim words it: pairwise strip,
even/odd split, SHA-1 halves, interleave. -/
def sha1_interleaved_claim (s_key : List ℕ) : List ℕ :=
  interleave40 (sha1 (bytesAtEvenIdx (stripZeroPairs s_key)))
    (sha1 (bytesAtOddIdx (stripZeroPairs s_key)))

/-- the stripping the code actually performs, in spec wording: count the leading
zero bytes and drop that count rounded up to an even number. -/
def specStripAmount (s_key : List ℕ) : ℕ :=
  let z := (s_key.takeWhile fun bt => bt == 0).length
  if z % 2 = 0 then z else z + 1

/-- the claimed derivation amended to the code's stripping rule. -/
def sha1_interleaved_amendedSpec (s_key : List ℕ) : List ℕ :=
  interleave40 (sha1 (bytesAtEvenIdx (s_key.drop (specStripAmount s_key))))
    (sha1 (bytesAtOddIdx (s_key.drop (specStripAmount s_key))))

/-- even-index extraction in recursive form, used to bridge the enumerate-based
and the index-based phrasings. -/
def evensRec : List ℕ → List ℕ
  | [] => []
  | [x] => [x]
  | x :: _ :: rest => x :: evensRec rest

/-- odd-index extraction in recursive form. -/
def oddsRec : List ℕ → List ℕ
  | [] => []
  | [_] => []
  | _ :: y :: rest => y :: oddsRec rest

/-! ### Identity casing (`calculate_x` and the spec's upper-cased identity) -/

/-- ASCII uppercasing of a single byte. -/
def upperAsciiByte (b : ℕ) : ℕ := if 97 ≤ b ∧ b ≤ 122 then b - 32 else b

/-- ASCII uppercasing of a byte string (`str::to_uppercase` on ASCII input). -/
def upperAscii (s : List ℕ) : List ℕ := s.map upperAsciiByte

/-- the spec's formula for `x`: the identity string is upper-cased before
hashing, `x = SHA1(salt_le ‖ SHA1(UPPER(username) ‖ ":" ‖ UPPER(password)))`. -/
def calculate_x_spec (username password salt : List ℕ) : List ℕ :=
  sha1 (salt ++ sha1 (upperAscii username ++ [58] ++ upperAscii password))

/-! ### Logon packet codecs (`crates/tc-server-auth/src/{opcode,packets}.rs`) -/

inductive LogonOpcode where
  | cmdAuthLogonChallenge
  | cmdAuthLogonProof
  | cmdAuthReconnectChallenge
  | cmdAuthReconnectProof
  | cmdSurveyResult
  | cmdRealmList
  | cmdXferInitiate
  | cmdXferData
  | cmdXferAccept
  | cmdXferResume
  | cmdXferCancel
  | cmdUknownOpcode
  deriving DecidableEq

/-- `From<u8> for LogonOpcode`: the eleven recognized opcodes; every other byte
maps to the unknown opcode (spelled `CmdUknownOpcode` in the source). -/
def LogonOpcode.fromByte : ℕ → LogonOpcode
  | 0x00 => .cmdAuthLogonChallenge
  | 0x01 => .cmdAuthLogonProof
  | 0x02 => .cmdAuthReconnectChallenge
  | 0x03 => .cmdAuthReconnectProof
  | 0x04 => .cmdSurveyResult
  | 0x10 => .cmdRealmList
  | 0x30 => .cmdXferInitiate
  | 0x31 => .cmdXferData
  | 0x32 => .cmdXferAccept
  | 0x33 => .cmdXferResume
  | 0x34 => .cmdXferCancel
  | _ => .cmdUknownOpcode

/-- the discriminant values of `#[repr(u8)] enum LogonOpcode` (`value.opcode as u8`). -/
def LogonOpcode.toByte : LogonOpcode → ℕ
  | .cmdAuthLogonChallenge => 0x00
  | .cmdAuthLogonProof => 0x01
  | .cmdAuthReconnectChallenge => 0x02
  | .cmdAuthReconnectProof => 0x03
  | .cmdSurveyResult => 0x04
  | .cmdRealmList => 0x10
  | .cmdXferInitiate => 0x30
  | .cmdXferData => 0x31
  | .cmdXferAccept => 0x32
  | .cmdXferResume => 0x33
  | .cmdXferCancel => 0x34
  | .cmdUknownOpcode => 0xFF

structure LogonPacket where
  opcode : LogonOpcode
  payload : List ℕ
  deriving DecidableEq

/-- `LogonPacket::decode`: an empty input is an error; otherwise the first byte
selects the opcode and the rest, when present, is kept with every `0x0D` and
`0x0A` byte filtered out. -/
def LogonPacket.decode (payload : List ℕ) : Except String LogonPacket :=
  if payload.length = 0 then .error "packet payload is empty"
  else
    let op := payload.getD 0 0
    let body :=
      if 2 ≤ payload.length
      then (payload.drop 1).filter fun b => b != 0x0D && b != 0x0A
      else []
    .ok ⟨LogonOpcode.fromByte op, body⟩

/-- the claim's payload transformation: only trailing `\r\n` bytes removed. -/
def stripTrailingCRLF (l : List ℕ) : List ℕ :=
  (l.reverse.dropWhile fun b => b == 0x0D || b == 0x0A).reverse

def u16_from_le_bytes (b0 b1 : ℕ) : ℕ := b0 + 256 * b1

def u32_from_le_bytes (b0 b1 b2 b3 : ℕ) : ℕ :=
  b0 + 256 * b1 + 65536 * b2 + 16777216 * b3

def u32_from_be_bytes (b0 b1 b2 b3 : ℕ) : ℕ :=
  16777216 * b0 + 65536 * b1 + 256 * b2 + b3

/-- value of the four-byte slice `l[i..i+4]` read as a little-endian u32
(spec wording for the packet layout). -/
def leU32At (l : List ℕ) (i : ℕ) : ℕ := natFromBytesLE ((l.drop i).take 4)

/-- value of the four-byte slice `l[i..i+4]` read as a big-endian u32. -/
def beU32At (l : List ℕ) (i : ℕ) : ℕ := natFromBytesLE ((l.drop i).take 4).reverse

/-- `1 + 2 + 4 + 1 + 1 + 1 + 2 + 4 + 4 + 4 + 4 + 4 + 1`. -/
def AUTH_LOGON_CHALLENGE_REQUEST_LEN : ℕ := 33

structure AuthLogonChallengeRequest where
  opcode : ℕ
  error : ℕ
  size : ℕ
  game_name : List ℕ
  version1 : ℕ
  version2 : ℕ
  version3 : ℕ
  build : ℕ
  platform : List ℕ
  os : List ℕ
  country : List ℕ
  timezone_bias : ℕ
  ip : ℕ
  account_name_len : ℕ
  account_name : List ℕ
  deriving DecidableEq

/-- `TryFrom<LogonPacket> for AuthLogonChallengeRequest`: reject payloads of
length ≤ 33, then read every field at its byte offsets exactly as the source
indexes them (`platform`/`os`/`country` reversed, `timezone_bias` from the
reversed bytes 27,26,25,24, `ip` big-endian from 28..32, and `account_name`
everything from offset 33 on). -/
def AuthLogonChallengeRequest.tryFrom (value : LogonPacket) :
    Except String AuthLogonChallengeRequest :=
  if value.payload.length ≤ AUTH_LOGON_CHALLENGE_REQUEST_LEN then
    .error "Payload for AuthLogonChallengeRequest is not of length"
  else
    let pl := value.payload
    .ok
      { opcode := value.opcode.toByte
        error := pl.getD 0 0
        size := u16_from_le_bytes (pl.getD 1 0) (pl.getD 2 0)
        game_name := [pl.getD 3 0, pl.getD 4 0, pl.getD 5 0, pl.getD 6 0]
        version1 := pl.getD 7 0
        version2 := pl.getD 8 0
        version3 := pl.getD 9 0
        build := u16_from_le_bytes (pl.getD 10 0) (pl.getD 11 0)
        platform := [pl.getD 15 0, pl.getD 14 0, pl.getD 13 0, pl.getD 12 0]
        os := [pl.getD 19 0, pl.getD 18 0, pl.getD 17 0, pl.getD 16 0]
        country := [pl.getD 23 0, pl.getD 22 0, pl.getD 21 0, pl.getD 20 0]
        timezone_bias :=
          u32_from_le_bytes (pl.getD 27 0) (pl.getD 26 0) (pl.getD 25 0) (pl.getD 24 0)
        ip := u32_from_be_bytes (pl.getD 28 0) (pl.getD 29 0) (pl.getD 30 0) (pl.getD 31 0)
        account_name_len := pl.getD 32 0
        account_name := pl.drop 33 }

/-! ### Prepared-statement LRU cache (`crates/tc-core/src/database/cache.rs`)

The map key is `DefaultHasher(sql)`; the hash is abstracted as collision-free,
so SQL texts are modelled directly by their key (a `ℕ`).  `Instant::now()` is a
logical clock that advances at every cache operation, so all `last_used` stamps
are distinct, and the `HashMap` is an association list in insertion order. -/

structure CacheEntry where
  sql : ℕ
  lastUsed : ℕ
  useCount : ℕ
  deriving DecidableEq

structure StmtCache where
  entries : List CacheEntry
  capacity : ℕ
  hits : ℕ
  misses : ℕ
  clock : ℕ
  deriving DecidableEq

/-- `PreparedStatementCache::new(capacity)`. -/
def cacheNew (capacity : ℕ) : StmtCache := ⟨[], capacity, 0, 0, 0⟩

/-- `get`: a hit refreshes `last_used`, bumps `use_count` and `hits`; a miss
bumps `misses`. -/
def cacheGet (sql : ℕ) (c : StmtCache) : StmtCache :=
  if c.entries.any fun e => e.sql == sql then
    { c with
      entries := c.entries.map fun e =>
        if e.sql == sql then { e with lastUsed := c.clock, useCount := e.useCount + 1 } else e
      hits := c.hits + 1
      clock := c.clock + 1 }
  else
    { c with misses := c.misses + 1, clock := c.clock + 1 }

/-- `min_by_key(|e| e.last_used)`: the first entry attaining the minimal
`last_used`, `none` on an empty cache. -/
def lruMin : List CacheEntry → Option CacheEntry
  | [] => none
  | e :: rest =>
      match lruMin rest with
      | none => some e
      | some m => if e.lastUsed ≤ m.lastUsed then some e else some m

/-- `evict_lru`: remove the entry whose key minimizes `last_used`. -/
def cacheEvictLru (c : StmtCache) : StmtCache :=
  match lruMin c.entries with
  | none => c
  | some m => { c with entries := c.entries.filter fun e => !(e.sql == m.sql) }

/-- `insert`: evict first when already at (or above) capacity, then insert the
new statement, replacing any entry with the same key. -/
def cacheInsert (sql : ℕ) (c : StmtCache) : StmtCache :=
  let c1 := if c.capacity ≤ c.entries.length then cacheEvictLru c else c
  { c1 with
    entries := (c1.entries.filter fun e => !(e.sql == sql)) ++ [⟨sql, c1.clock, 1⟩]
    clock := c1.clock + 1 }

inductive CacheOp where
  | get (sql : ℕ)
  | insert (sql : ℕ)
  deriving DecidableEq

def cacheStep (c : StmtCache) : CacheOp → StmtCache
  | .get sql => cacheGet sql c
  | .insert sql => cacheInsert sql c

/-- run a sequence of cache operations against a fresh cache of capacity `C`. -/
def cacheRun (capacity : ℕ) (ops : List CacheOp) : StmtCache :=
  ops.foldl cacheStep (cacheNew capacity)

/-- invariant of a run of distinct inserts: capacity fixed, keys are the
last `C` of the inserted keys in order, `last_used` strictly increasing, and
all stamps below the clock. -/
def CacheInv (C : ℕ) (done : List ℕ) (c : StmtCache) : Prop :=
  c.capacity = C ∧
  c.entries.map (·.sql) = done.drop (done.length - C) ∧
  (c.entries.map (·.lastUsed)).Pairwise (· < ·) ∧
  ∀ e ∈ c.entries, e.lastUsed < c.clock

/-! ### Migration engine (`crates/tc-core/src/database/migration.rs`)

The database is the list of `_migrations` records `(version, name)` in
insertion order; `current_version` is `MAX(version)`.  Executing a migration's
SQL statements only touches the schema, which is outside this model, so
`apply_migration` reduces to the record insert and `revert_migration` to the
down-script check plus the record delete; the registry (a `BTreeMap` by
version) is a list sorted by strictly increasing version. -/

structure Migration where
  version : ℤ
  name : String
  up : String
  down : Option String

structure MigrationReport where
  initial_version : ℤ
  target_version : ℤ
  final_version : ℤ
  applied : List ℤ
  reverted : List ℤ

def currentVersion (db : List (ℤ × String)) : Option ℤ := (db.map Prod.fst).max?

def applyMigration (m : Migration) (db : List (ℤ × String)) : List (ℤ × String) :=
  db ++ [(m.version, m.name)]

def revertMigration (m : Migration) (db : List (ℤ × String)) :
    Except String (List (ℤ × String)) :=
  match m.down with
  | none => .error "has no down script"
  | some _ => .ok (db.filter fun r => !(r.1 == m.version))

def migrateUpRun (ms : List Migration) (db : List (ℤ × String)) :
    List ℤ × List (ℤ × String) :=
  match ms with
  | [] => ([], db)
  | m :: rest =>
      let r := migrateUpRun rest (applyMigration m db)
      (m.version :: r.1, r.2)

def migrateDownRun (ms : List Migration) (db : List (ℤ × String)) :
    Except String (List ℤ) × List (ℤ × String) :=
  match ms with
  | [] => (.ok [], db)
  | m :: rest =>
      match revertMigration m db with
      | .error e => (.error e, db)
      | .ok db' =>
          match migrateDownRun rest db' with
          | (.ok vs, db'') => (.ok (m.version :: vs), db'')
          | (.error e, db'') => (.error e, db'')

def pendingMigrations (reg : List Migration) (current target : ℤ) : List Migration :=
  reg.filter fun m => decide (current < m.version) && decide (m.version ≤ target)

def revertTargets (reg : List Migration) (current target : ℤ) : List Migration :=
  (reg.filter fun m => decide (m.version ≤ current) && decide (target < m.version)).reverse

def migrate_to (reg : List Migration) (db : List (ℤ × String)) (target : ℤ) :
    Except String MigrationReport × List (ℤ × String) :=
  let current := (currentVersion db).getD 0
  if current ≤ target then
    let r := migrateUpRun (pendingMigrations reg current target) db
    (.ok ⟨current, target, (currentVersion r.2).getD 0, r.1, []⟩, r.2)
  else
    match migrateDownRun (revertTargets reg current target) db with
    | (.ok vs, db') => (.ok ⟨current, target, (currentVersion db').getD 0, [], vs⟩, db')
    | (.error e, db') => (.error e, db')


/-! ### Connection-registry broadcast (`crates/tc-core/src/server/connection.rs`)

Each handle carries whether its bounded-channel `send` succeeds; the functions
return the ids of the connections actually sent to, together with the result.
The `?` after every `send` in the source propagates the first failure. -/

structure ConnectionHandle where
  id : ℕ
  sendOk : Bool
  deriving DecidableEq

/-- `broadcast_all`: send to every registered connection in iteration order;
a failing send returns its error immediately. -/
def broadcast_all : List ConnectionHandle → List ℕ × Except ℕ Unit
  | [] => ([], .ok ())
  | c :: rest =>
      if c.sendOk then
        let r := broadcast_all rest
        (c.id :: r.1, r.2)
      else ([c.id], .error c.id)

/-- `broadcast_except`: skip the sender's own id, otherwise as `broadcast_all`. -/
def broadcast_except (sender_id : ℕ) : List ConnectionHandle → List ℕ × Except ℕ Unit
  | [] => ([], .ok ())
  | c :: rest =>
      if c.id = sender_id then broadcast_except sender_id rest
      else if c.sendOk then
        let r := broadcast_except sender_id rest
        (c.id :: r.1, r.2)
      else ([c.id], .error c.id)

/-- `broadcast_filter`: send only where the predicate holds. -/
def broadcast_filter (f : ConnectionHandle → Bool) :
    List ConnectionHandle → List ℕ × Except ℕ Unit
  | [] => ([], .ok ())
  | c :: rest =>
      if f c then
        if c.sendOk then
          let r := broadcast_filter f rest
          (c.id :: r.1, r.2)
        else ([c.id], .error c.id)
      else broadcast_filter f rest

/-! ### Connection pool acquire (`crates/tc-core/src/database/pool.rs`)

A sequential model of the pool state.  The semaphore wait and the connection
creation are awaits bounded by `acquire_timeout`; whether they succeed in time
is an oracle parameter of `acquire`. -/

inductive SqlErrorKind where
  | connection
  | timeout
  | query
  | transaction
  | pool
  | healthCheck
  | panic
  | shutdown
  deriving DecidableEq

structure PoolState where
  isShutdown : Bool
  availablePermits : ℕ
  idle : List ℕ
  activeCount : ℕ
  totalCreated : ℕ
  deriving DecidableEq

/-- `ConnectionPool::acquire`: reject with `Shutdown` when the flag is set,
then take a permit (or time out), then pop an idle connection or create one. -/
def acquire (s : PoolState) (permitGranted createOk : Bool) :
    Except SqlErrorKind ℕ × PoolState :=
  if s.isShutdown then (.error .shutdown, s)
  else if permitGranted = false then (.error .timeout, s)
  else
    match s.idle with
    | c :: rest =>
        (.ok c,
         { s with availablePermits := s.availablePermits - 1, idle := rest,
                  activeCount := s.activeCount + 1 })
    | [] =>
        if createOk then
          (.ok s.totalCreated,
           { s with availablePermits := s.availablePermits - 1,
                    totalCreated := s.totalCreated + 1,
                    activeCount := s.activeCount + 1 })
        else (.error .timeout, s)

/-- the first action of `ConnectionPool::shutdown`: set the flag; it is never
cleared again. -/
def shutdownStart (s : PoolState) : PoolState := { s with isShutdown := true }

/-! ## Theorems -/

theorem natToBytesLE_length (k n : ℕ) : (natToBytesLE k n).length = k := by
  induction k generalizing n with
  | zero => rfl
  | succ k ih => simp [natToBytesLE, ih]

theorem natFromBytesLE_natToBytesLE (k n : ℕ) :
    natFromBytesLE (natToBytesLE k n) = n % 256 ^ k := by
  induction k generalizing n with
  | zero => simp [natToBytesLE, natFromBytesLE, Nat.mod_one]
  | succ k ih =>
      have h1 : n / 256 % 256 ^ k = n % (256 * 256 ^ k) / 256 :=
        (Nat.mod_mul_right_div_self n 256 (256 ^ k)).symm
      have h2 : n % (256 * 256 ^ k) % 256 = n % 256 :=
        Nat.mod_mod_of_dvd n ⟨256 ^ k, rfl⟩
      have h3 : 256 * (n % (256 * 256 ^ k) / 256) + n % (256 * 256 ^ k) % 256
          = n % (256 * 256 ^ k) := Nat.div_add_mod _ 256
      simp only [natToBytesLE, natFromBytesLE, ih]
      rw [pow_succ, mul_comm (256 ^ k) 256, h1, ← h2]
      omega

theorem natFromBytesLE_natToBytesLE_of_lt {k n : ℕ} (h : n < 256 ^ k) :
    natFromBytesLE (natToBytesLE k n) = n := by
  rw [natFromBytesLE_natToBytesLE, Nat.mod_eq_of_lt h]

theorem sha1_length (msg : List ℕ) : (sha1 msg).length = 20 := by
  simp [sha1, natToBytesBE, natToBytesLE_length]

theorem modpowAux_eq (n : ℕ) :
    ∀ fuel e b, e < fuel → modpowAux fuel b e n = b ^ e % n := by
  intro fuel
  induction fuel with
  | zero => intro e b h; omega
  | succ fuel ih =>
      intro e b h
      by_cases he : e = 0
      · simp [modpowAux, he]
      · have he1 : 1 ≤ e := Nat.one_le_iff_ne_zero.mpr he
        have hdiv : e / 2 < fuel := by omega
        have hr : modpowAux fuel (b * b % n) (e / 2) n = b ^ (2 * (e / 2)) % n := by
          rw [ih (e / 2) (b * b % n) hdiv, ← Nat.pow_mod, ← pow_two, ← pow_mul]
        simp only [modpowAux, he, if_false, hr]
        by_cases hodd : e % 2 = 1
        · have hexp : 2 * (e / 2) + 1 = e := by omega
          rw [if_pos hodd, Nat.mod_mul_mod, ← pow_succ, hexp]
        · have hexp : 2 * (e / 2) = e := by omega
          rw [if_neg hodd, hexp]

theorem modpow_eq (b e n : ℕ) : modpow b e n = b ^ e % n :=
  modpowAux_eq n (e + 1) e b (Nat.lt_succ_self e)

theorem modpow_lt {n : ℕ} (hn : 0 < n) (b e : ℕ) : modpow b e n < n := by
  rw [modpow_eq]; exact Nat.mod_lt _ hn

theorem int_emod_modEq (a n : ℤ) : a % n ≡ a [ZMOD n] :=
  Int.emod_emod_of_dvd a dvd_rfl

theorem intModpow_eq {n : ℕ} (hn : 0 < n) (b : ℤ) (e : ℕ) :
    intModpow b e n = b ^ e % (n : ℤ) := by
  have hnz : (n : ℤ) ≠ 0 := by exact_mod_cast hn.ne'
  have hcast : ((b % (n : ℤ)).toNat : ℤ) = b % (n : ℤ) :=
    Int.toNat_of_nonneg (Int.emod_nonneg b hnz)
  have hmodeq : (b % (n : ℤ)) ^ e ≡ b ^ e [ZMOD (n : ℤ)] :=
    (int_emod_modEq b (n : ℤ)).pow e
  rw [intModpow, modpow_eq]
  push_cast [hcast]
  exact hmodeq

theorem largeSafePrime_pos : 0 < largeSafePrime := by decide

theorem largeSafePrime_lt : largeSafePrime < 256 ^ 32 := by decide

/-- algebraic heart of the SRP6 agreement, over the integers modulo `N`:
with `B ≡ k·(g^x mod N) + g^b` the client base `B − k·(g^x mod N)` is
congruent to `g^b`, so both interim secrets are `g^(b·(a + u·x)) mod N`. -/
theorem srp_s_agreement_core (N k g : ℕ) (hN : 0 < N) (xn un an bn : ℕ) :
    (intModpow ((((k * (g ^ xn % N) + g ^ bn % N) % N : ℕ) : ℤ)
        - (k : ℤ) * ((g ^ xn % N : ℕ) : ℤ)) (an + un * xn) N).toNat
      = ((g ^ an % N) * ((g ^ xn % N) ^ un % N)) ^ bn % N := by
  rw [intModpow_eq hN]
  set P : ℤ := ((g ^ xn % N : ℕ) : ℤ) with hPdef
  have hcastP : P = (g : ℤ) ^ xn % (N : ℤ) := by rw [hPdef]; push_cast; rfl
  have hPmod : P ≡ (g : ℤ) ^ xn [ZMOD (N : ℤ)] := by
    rw [hcastP]; exact int_emod_modEq _ _
  have hgb : ((g ^ bn % N : ℕ) : ℤ) ≡ (g : ℤ) ^ bn [ZMOD (N : ℤ)] := by
    have h : ((g ^ bn % N : ℕ) : ℤ) = (g : ℤ) ^ bn % (N : ℤ) := by push_cast; rfl
    rw [h]; exact int_emod_modEq _ _
  have hBn : (((k * (g ^ xn % N) + g ^ bn % N) % N : ℕ) : ℤ)
      ≡ (k : ℤ) * P + (g : ℤ) ^ bn [ZMOD (N : ℤ)] := by
    have h1 : (((k * (g ^ xn % N) + g ^ bn % N) % N : ℕ) : ℤ)
        = ((k : ℤ) * P + ((g ^ bn % N : ℕ) : ℤ)) % (N : ℤ) := by
      rw [hPdef]; push_cast; rfl
    calc (((k * (g ^ xn % N) + g ^ bn % N) % N : ℕ) : ℤ)
        ≡ (k : ℤ) * P + ((g ^ bn % N : ℕ) : ℤ) [ZMOD (N : ℤ)] := by
          rw [h1]; exact int_emod_modEq _ _
      _ ≡ (k : ℤ) * P + (g : ℤ) ^ bn [ZMOD (N : ℤ)] := (Int.ModEq.refl _).add hgb
  have hbase : (((k * (g ^ xn % N) + g ^ bn % N) % N : ℕ) : ℤ) - (k : ℤ) * P
      ≡ (g : ℤ) ^ bn [ZMOD (N : ℤ)] := by
    have h := hBn.sub (Int.ModEq.refl ((k : ℤ) * P))
    simpa using h
  have hleft : ((((k * (g ^ xn % N) + g ^ bn % N) % N : ℕ) : ℤ) - (k : ℤ) * P)
        ^ (an + un * xn)
      ≡ (g : ℤ) ^ (bn * (an + un * xn)) [ZMOD (N : ℤ)] := by
    have h := hbase.pow (an + un * xn)
    rwa [← pow_mul] at h
  have hga : ((g ^ an % N : ℕ) : ℤ) ≡ (g : ℤ) ^ an [ZMOD (N : ℤ)] := by
    have h : ((g ^ an % N : ℕ) : ℤ) = (g : ℤ) ^ an % (N : ℤ) := by push_cast; rfl
    rw [h]; exact int_emod_modEq _ _
  have hvu : (((g ^ xn % N) ^ un % N : ℕ) : ℤ) ≡ (g : ℤ) ^ (xn * un) [ZMOD (N : ℤ)] := by
    have h : (((g ^ xn % N) ^ un % N : ℕ) : ℤ) = P ^ un % (N : ℤ) := by
      rw [hPdef]; push_cast; rfl
    rw [h]
    calc P ^ un % (N : ℤ) ≡ P ^ un [ZMOD (N : ℤ)] := int_emod_modEq _ _
      _ ≡ ((g : ℤ) ^ xn) ^ un [ZMOD (N : ℤ)] := hPmod.pow un
      _ = (g : ℤ) ^ (xn * un) := by rw [← pow_mul]
  have hright : (((g ^ an % N : ℕ) : ℤ) * (((g ^ xn % N) ^ un % N : ℕ) : ℤ)) ^ bn
      ≡ (g : ℤ) ^ ((an + xn * un) * bn) [ZMOD (N : ℤ)] := by
    have h := (hga.mul hvu).pow bn
    rwa [← pow_add, ← pow_mul] at h
  have hexp : bn * (an + un * xn) = (an + xn * un) * bn := by ring
  have hfinal : ((((k * (g ^ xn % N) + g ^ bn % N) % N : ℕ) : ℤ) - (k : ℤ) * P)
        ^ (an + un * xn)
      ≡ (((g ^ an % N : ℕ) : ℤ) * (((g ^ xn % N) ^ un % N : ℕ) : ℤ)) ^ bn
        [ZMOD (N : ℤ)] := by
    rw [hexp] at hleft
    exact hleft.trans hright.symm
  have hres : ((((k * (g ^ xn % N) + g ^ bn % N) % N : ℕ) : ℤ) - (k : ℤ) * P)
        ^ (an + un * xn) % (N : ℤ)
      = ((((g ^ an % N) * ((g ^ xn % N) ^ un % N)) ^ bn % N : ℕ) : ℤ) := by
    have hc : ((((g ^ an % N) * ((g ^ xn % N) ^ un % N)) ^ bn % N : ℕ) : ℤ)
        = (((g ^ an % N : ℕ) : ℤ) * (((g ^ xn % N) ^ un % N : ℕ) : ℤ)) ^ bn % (N : ℤ) := by
      push_cast; rfl
    rw [hc]
    exact hfinal
  rw [hres, Int.toNat_natCast]

theorem natFromBytesLE_modpow_key (b e : ℕ) :
    natFromBytesLE (natToBytesLE 32 (modpow b e largeSafePrime)) = b ^ e % largeSafePrime := by
  rw [natFromBytesLE_natToBytesLE_of_lt
        (lt_trans (modpow_lt largeSafePrime_pos b e) largeSafePrime_lt),
      modpow_eq]

theorem natFromBytesLE_mod_key (m : ℕ) :
    natFromBytesLE (natToBytesLE 32 (m % largeSafePrime)) = m % largeSafePrime :=
  natFromBytesLE_natToBytesLE_of_lt
    (lt_trans (Nat.mod_lt m largeSafePrime_pos) largeSafePrime_lt)

/-- C1. SRP6 session agreement: for every username, password, salt and 32-byte
private keys `a` and `b`, with `x = calculate_x(username, password, salt)`,
`v = g^x mod N`, `A = calculate_client_public_key(a)`,
`B = calculate_server_public_key(v, b)` and `u = calculate_u(A, B)`, the client
interim secret `calculate_client_s(a, B, x, u)` equals the server interim
secret `calculate_server_s(A, b, v, u)`. -/
theorem srp6_session_agreement
    (username password salt a b x v A B u : List ℕ)
    (ha : a.length = 32) (hb : b.length = 32)
    (hx : x = calculate_x username password salt)
    (hv : v = calculate_password_verifier username password salt)
    (hA : A = calculate_client_public_key a)
    (hB : B = calculate_server_public_key v b)
    (hu : u = calculate_u A B) :
    calculate_client_s a B x u = calculate_server_s A b v u := by
  subst hx hv hA hB
  simp only [calculate_client_s, calculate_server_s, calculate_server_public_key,
    calculate_password_verifier, calculate_client_public_key, kValue, generatorValue]
  rw [natFromBytesLE_modpow_key]
  rw [natFromBytesLE_modpow_key]
  rw [natFromBytesLE_mod_key]
  rw [modpow_eq, modpow_eq, modpow_eq, modpow_eq]
  apply congrArg (natToBytesLE 32)
  exact srp_s_agreement_core largeSafePrime 3 7 largeSafePrime_pos
    (natFromBytesLE (calculate_x username password salt)) (natFromBytesLE u)
    (natFromBytesLE a) (natFromBytesLE b)

theorem srp6_session_agreement_witness :
    (1 :: List.replicate 31 (0 : ℕ)).length = 32 ∧
    calculate_client_s (1 :: List.replicate 31 0)
        (calculate_server_public_key
          (calculate_password_verifier [85] [80] (List.replicate 32 3))
          (2 :: List.replicate 31 0))
        (calculate_x [85] [80] (List.replicate 32 3))
        (calculate_u (calculate_client_public_key (1 :: List.replicate 31 0))
          (calculate_server_public_key
            (calculate_password_verifier [85] [80] (List.replicate 32 3))
            (2 :: List.replicate 31 0)))
      = calculate_server_s (calculate_client_public_key (1 :: List.replicate 31 0))
          (2 :: List.replicate 31 0)
          (calculate_password_verifier [85] [80] (List.replicate 32 3))
          (calculate_u (calculate_client_public_key (1 :: List.replicate 31 0))
            (calculate_server_public_key
              (calculate_password_verifier [85] [80] (List.replicate 32 3))
              (2 :: List.replicate 31 0))) :=
  ⟨by decide,
    srp6_session_agreement [85] [80] (List.replicate 32 3)
      (1 :: List.replicate 31 0) (2 :: List.replicate 31 0) _ _ _ _ _
      (by decide) (by decide) rfl rfl rfl rfl rfl⟩

theorem twoStepInduction {motive : List ℕ → Prop} (h0 : motive [])
    (h1 : ∀ x, motive [x])
    (h2 : ∀ x y rest, motive rest → motive (x :: y :: rest)) : ∀ l, motive l
  | [] => h0
  | [x] => h1 x
  | x :: y :: rest => h2 x y rest (twoStepInduction h0 h1 h2 rest)

theorem filterEvenIdx_enumFrom (l : List ℕ) :
    ∀ n, ((List.enumFrom (2 * n) l).filter fun p => p.1 % 2 = 0).map Prod.snd = evensRec l := by
  induction l using twoStepInduction with
  | h0 => intro n; rfl
  | h1 x => intro n; simp [List.enumFrom, evensRec, Nat.mul_mod_right]
  | h2 x y rest ih =>
      intro n
      have hodd : (2 * n + 1) % 2 = 1 := by omega
      have hnext : 2 * n + 1 + 1 = 2 * (n + 1) := by omega
      simp only [List.enumFrom, List.filter, Nat.mul_mod_right, evensRec]
      simp only [hodd]
      norm_num
      rw [hnext, ih (n + 1)]

theorem filterEvenIdx_eq_evensRec (l : List ℕ) : filterEvenIdx l = evensRec l := by
  have h := filterEvenIdx_enumFrom l 0
  simpa [filterEvenIdx, List.enum] using h

theorem filterOddIdx_enumFrom (l : List ℕ) :
    ∀ n, ((List.enumFrom (2 * n) l).filter fun p => p.1 % 2 = 1).map Prod.snd = oddsRec l := by
  induction l using twoStepInduction with
  | h0 => intro n; rfl
  | h1 x => intro n; simp [List.enumFrom, oddsRec, Nat.mul_mod_right]
  | h2 x y rest ih =>
      intro n
      have hodd : (2 * n + 1) % 2 = 1 := by omega
      have hnext : 2 * n + 1 + 1 = 2 * (n + 1) := by omega
      simp only [List.enumFrom, List.filter, Nat.mul_mod_right, oddsRec]
      simp only [hodd]
      norm_num
      rw [hnext, ih (n + 1)]

theorem filterOddIdx_eq_oddsRec (l : List ℕ) : filterOddIdx l = oddsRec l := by
  have h := filterOddIdx_enumFrom l 0
  simpa [filterOddIdx, List.enum] using h

theorem bytesAtEvenIdx_eq_evensRec (l : List ℕ) : bytesAtEvenIdx l = evensRec l := by
  induction l using twoStepInduction with
  | h0 => rfl
  | h1 x => simp [bytesAtEvenIdx, evensRec, List.range_succ]
  | h2 x y rest ih =>
      simp only [bytesAtEvenIdx, evensRec, List.length_cons]
      have hlen : (rest.length + 1 + 1 + 1) / 2 = (rest.length + 1) / 2 + 1 := by omega
      rw [hlen, List.range_succ_eq_map, List.map_cons, List.map_map]
      congr 1

theorem bytesAtOddIdx_eq_oddsRec (l : List ℕ) : bytesAtOddIdx l = oddsRec l := by
  induction l using twoStepInduction with
  | h0 => rfl
  | h1 x => simp [bytesAtOddIdx, oddsRec]
  | h2 x y rest ih =>
      simp only [bytesAtOddIdx, oddsRec, List.length_cons]
      have hlen : (rest.length + 1 + 1) / 2 = rest.length / 2 + 1 := by omega
      rw [hlen, List.range_succ_eq_map, List.map_cons, List.map_map]
      congr 1

theorem countLeadingZeroBytes_eq_takeWhile (l : List ℕ) (h : ∃ bt ∈ l, bt ≠ 0) :
    countLeadingZeroBytes l = some (l.takeWhile fun bt => bt == 0).length := by
  induction l with
  | nil => simp at h
  | cons b rest ih =>
      by_cases hb : b = 0
      · subst hb
        have hrest : ∃ bt ∈ rest, bt ≠ 0 := by
          rcases h with ⟨bt, hmem, hne⟩
          rcases List.mem_cons.mp hmem with h1 | h1
          · omega
          · exact ⟨bt, h1, hne⟩
        simp [countLeadingZeroBytes, List.takeWhile, ih hrest]
      · simp [countLeadingZeroBytes, hb, List.takeWhile_cons, beq_iff_eq]

theorem interleaveZip_length : ∀ g h : List ℕ,
    (interleaveZip g h).length = 2 * min g.length h.length := by
  intro g
  induction g with
  | nil => intro h; cases h <;> simp [interleaveZip]
  | cons x xs ih =>
      intro h
      cases h with
      | nil => simp [interleaveZip]
      | cons y ys => simp [interleaveZip, ih ys]; omega

theorem interleaveZip_eq_range : ∀ (n : ℕ) (g h : List ℕ),
    g.length = n → h.length = n →
    interleaveZip g h = (List.range (2 * n)).map
      (fun j => if j % 2 = 0 then g.getD (j / 2) 0 else h.getD (j / 2) 0) := by
  intro n
  induction n with
  | zero =>
      intro g h hg hh
      rw [List.length_eq_zero] at hg hh
      subst hg; subst hh
      rfl
  | succ n ih =>
      intro g h hg hh
      match g, h with
      | a :: g', b :: h' =>
          have hg' : g'.length = n := by simpa using hg
          have hh' : h'.length = n := by simpa using hh
          have h2 : 2 * (n + 1) = 2 * n + 1 + 1 := by ring
          rw [h2, List.range_succ_eq_map, List.range_succ_eq_map, List.map_cons,
            List.map_cons, List.map_map]
          simp only [interleaveZip]
          congr 1
          rw [ih g' h' hg' hh', List.map_cons, List.map_map]
          congr 1
          apply List.map_congr_left
          intro j hj
          have hm : Nat.succ (Nat.succ j) % 2 = j % 2 := by omega
          have hd : Nat.succ (Nat.succ j) / 2 = j / 2 + 1 := by omega
          simp only [Function.comp_apply, hm, hd, List.getD_cons_succ]

theorem interleaveZip_eq_interleave40 (g h : List ℕ)
    (hg : g.length = 20) (hh : h.length = 20) :
    interleaveZip g h = interleave40 g h := by
  have h40 : (40 : ℕ) = 2 * 20 := by norm_num
  rw [interleave40, h40, interleaveZip_eq_range 20 g h hg hh]

/-- C2 as stated fails: the code strips by rounding the count of leading zero
bytes up to an even number, not by the claim's pairwise dropping rule; the two
differ on a key with an odd run of leading zeros followed by a zero at the
next even position. -/
theorem sha1_interleaved_strip_cex :
    sha1_interleaved ([0, 1, 0] ++ List.replicate 29 1)
      ≠ some (sha1_interleaved_claim ([0, 1, 0] ++ List.replicate 29 1)) := by
  decide

/-- C2 (amended). For every 32-byte interim secret with a nonzero byte,
`sha1_interleaved` drops the leading zero bytes rounded up to an even count
(rather than stripping in pairs), splits the rest into even- and odd-index
bytes, hashes the halves and interleaves `K[2i] = G[i]`, `K[2i+1] = H[i]`. -/
theorem sha1_interleaved_strip_amended (S : List ℕ) (hlen : S.length = 32)
    (hnz : ∃ bt ∈ S, bt ≠ 0) :
    sha1_interleaved S = some (sha1_interleaved_amendedSpec S) := by
  have hc := countLeadingZeroBytes_eq_takeWhile S hnz
  have hif : (if (S.takeWhile fun bt => bt == 0).length % 2 ≠ 0
      then (S.takeWhile fun bt => bt == 0).length + 1
      else (S.takeWhile fun bt => bt == 0).length) = specStripAmount S := by
    rw [specStripAmount]
    by_cases hp : (S.takeWhile fun bt => bt == 0).length % 2 = 0 <;> simp [hp]
  rw [sha1_interleaved, as_split_slice, hc]
  simp only [Option.map_some']
  rw [sha1_interleaved_amendedSpec]
  congr 1
  rw [hif, filterEvenIdx_eq_evensRec, filterOddIdx_eq_oddsRec,
    ← bytesAtEvenIdx_eq_evensRec, ← bytesAtOddIdx_eq_oddsRec]
  exact interleaveZip_eq_interleave40 _ _ (sha1_length _) (sha1_length _)

theorem sha1_interleaved_strip_amended_witness :
    (1 :: List.replicate 31 (0 : ℕ)).length = 32 ∧
    (∃ bt ∈ (1 :: List.replicate 31 (0 : ℕ)), bt ≠ 0) ∧
    sha1_interleaved (1 :: List.replicate 31 0)
      = some (sha1_interleaved_amendedSpec (1 :: List.replicate 31 0)) :=
  ⟨by decide, by decide,
    sha1_interleaved_strip_amended (1 :: List.replicate 31 0) (by decide) (by decide)⟩

/-- C10. The key-stripping helper panics on the all-zero 32-byte interim key:
`as_split_slice`'s scan runs past the end of the array, so `sha1_interleaved`
does not return a key there; on every 32-byte key with a nonzero byte it is
total and returns 40 bytes. -/
theorem sha1_interleaved_zero_key_panics :
    sha1_interleaved (List.replicate 32 0) = none ∧
    ∀ key : List ℕ, key.length = 32 → (∃ bt ∈ key, bt ≠ 0) →
      ∃ K, sha1_interleaved key = some K ∧ K.length = 40 := by
  constructor
  · decide
  · intro key hlen hnz
    have hc := countLeadingZeroBytes_eq_takeWhile key hnz
    rw [sha1_interleaved, as_split_slice, hc, Option.map_some']
    refine ⟨_, rfl, ?_⟩
    rw [interleaveZip_length, sha1_length, sha1_length]
    norm_num

theorem sha1_interleaved_zero_key_panics_witness :
    (1 :: List.replicate 31 (0 : ℕ)).length = 32 ∧
    (∃ bt ∈ (1 :: List.replicate 31 (0 : ℕ)), bt ≠ 0) ∧
    ∃ K, sha1_interleaved (1 :: List.replicate 31 0) = some K ∧ K.length = 40 :=
  ⟨by decide, by decide,
    sha1_interleaved_zero_key_panics.2 (1 :: List.replicate 31 0) (by decide) (by decide)⟩

/-- C3 as stated fails: `calculate_x` applies no case transformation, so on a
lower-case identity it differs from the upper-cased-identity formula. -/
theorem calculate_x_case_cex :
    calculate_x [97] [98] (List.replicate 32 0)
      ≠ calculate_x_spec [97] [98] (List.replicate 32 0) := by
  decide

/-- C3 (amended). `calculate_x` hashes the identity exactly as given,
`x = SHA1(salt_le ‖ SHA1(username ‖ ":" ‖ password))`; it agrees with the
spec's upper-cased-identity formula precisely when username and password are
already upper-case ASCII. -/
theorem calculate_x_case_agreement (username password salt : List ℕ)
    (hu : upperAscii username = username) (hp : upperAscii password = password) :
    calculate_x username password salt = calculate_x_spec username password salt := by
  rw [calculate_x_spec, hu, hp, calculate_x]

theorem calculate_x_case_agreement_witness :
    upperAscii [85] = [85] ∧ upperAscii [80] = [80] ∧
    calculate_x [85] [80] (List.replicate 32 0)
      = calculate_x_spec [85] [80] (List.replicate 32 0) :=
  ⟨by decide, by decide,
    calculate_x_case_agreement [85] [80] (List.replicate 32 0) (by decide) (by decide)⟩

theorem filter_crlf_eq_removeAll (l : List ℕ) :
    (l.filter fun b => b != 0x0D && b != 0x0A) = l.removeAll [0x0D, 0x0A] := by
  rw [List.removeAll]
  apply List.filter_congr
  intro b _
  by_cases h13 : b = 13
  · subst h13; rfl
  · by_cases h10 : b = 10
    · subst h10; rfl
    · simp [List.elem_cons, h13, h10]

/-- C4 as stated fails: `decode` removes every `0x0D`/`0x0A` byte from the
remainder, not only trailing ones; an interior `0x0D` disappears. -/
theorem logon_decode_cex :
    ∃ p, LogonPacket.decode [0x00, 0x41, 0x0D, 0x42] = .ok p ∧
      p.payload ≠ stripTrailingCRLF [0x41, 0x0D, 0x42] :=
  ⟨⟨.cmdAuthLogonChallenge, [0x41, 0x42]⟩, rfl, by decide⟩

/-- C4 (amended). `decode` errors exactly on the empty input; on any nonempty
input it never fails: the first byte is mapped through the recognized-opcode
table (any unrecognized byte giving the unknown opcode, not an error) and the
payload is the remaining bytes with every `0x0D` and `0x0A` byte removed,
wherever it occurs. -/
theorem logon_decode_amended (input : List ℕ) :
    (input = [] → LogonPacket.decode input = .error "packet payload is empty") ∧
    (∀ op rest, input = op :: rest →
      LogonPacket.decode input
        = .ok ⟨LogonOpcode.fromByte op, rest.removeAll [0x0D, 0x0A]⟩) := by
  constructor
  · intro h; subst h; rfl
  · intro op rest h
    subst h
    rw [LogonPacket.decode]
    cases rest with
    | nil => simp [List.removeAll]
    | cons r rs =>
        have hge : (2 : ℕ) ≤ rs.length + 1 + 1 := by omega
        simp [hge, filter_crlf_eq_removeAll]

theorem logon_decode_amended_witness :
    ([0x00, 0x41, 0x0D, 0x42] : List ℕ) = 0x00 :: [0x41, 0x0D, 0x42] ∧
    LogonPacket.decode [0x00, 0x41, 0x0D, 0x42]
      = .ok ⟨LogonOpcode.fromByte 0x00, [0x41, 0x0D, 0x42].removeAll [0x0D, 0x0A]⟩ :=
  ⟨rfl, (logon_decode_amended [0x00, 0x41, 0x0D, 0x42]).2 0x00 [0x41, 0x0D, 0x42] rfl⟩

theorem drop_take4_eq_getD : ∀ (i : ℕ) (l : List ℕ), i + 4 ≤ l.length →
    (l.drop i).take 4 = [l.getD i 0, l.getD (i + 1) 0, l.getD (i + 2) 0, l.getD (i + 3) 0] := by
  intro i
  induction i with
  | zero =>
      intro l hl
      cases l with
      | nil => simp at hl
      | cons a t1 =>
        cases t1 with
        | nil => simp at hl
        | cons b t2 =>
          cases t2 with
          | nil => simp at hl
          | cons c t3 =>
            cases t3 with
            | nil => simp at hl
            | cons d t4 => rfl
  | succ i ih =>
      intro l hl
      cases l with
      | nil => simp at hl
      | cons x xs =>
          simp only [List.drop_succ_cons, List.getD_cons_succ]
          exact ih xs (by simpa using hl)

/-- C5 as stated fails: `timezone_bias` is read from the reversed byte slice
(big-endian, not little-endian), and `account_name` is every byte from offset
33 to the end of the payload rather than exactly `account_name_len` bytes. -/
theorem auth_logon_challenge_request_cex :
    ∃ r, AuthLogonChallengeRequest.tryFrom
        ⟨.cmdAuthLogonChallenge,
          List.replicate 24 0 ++ [1] ++ List.replicate 7 0 ++ [1, 7, 8]⟩
      = .ok r ∧
      r.timezone_bias
        ≠ leU32At (List.replicate 24 0 ++ [1] ++ List.replicate 7 0 ++ [1, 7, 8]) 24 ∧
      r.account_name.length ≠ r.account_name_len := by
  refine ⟨_, rfl, ?_, ?_⟩ <;> decide

/-- C5 (amended). Every payload longer than 33 bytes is accepted, and the
fields are read bit-exactly at their offsets with these corrections to the
claim: `timezone_bias` is the big-endian u32 at offsets 24..28 (the source
reverses the bytes before `from_le_bytes`), `ip` is the big-endian u32 at
28..32, `account_name_len` is the byte at offset 32, and `account_name` is all
of the remaining bytes from offset 33 on, regardless of `account_name_len`. -/
theorem auth_logon_challenge_request_amended (op : LogonOpcode) (body : List ℕ)
    (hlen : AUTH_LOGON_CHALLENGE_REQUEST_LEN < body.length) :
    ∃ r, AuthLogonChallengeRequest.tryFrom ⟨op, body⟩ = .ok r ∧
      r.timezone_bias = beU32At body 24 ∧
      r.ip = beU32At body 28 ∧
      r.account_name_len = body.getD 32 0 ∧
      r.account_name = body.drop 33 := by
  rw [AUTH_LOGON_CHALLENGE_REQUEST_LEN] at hlen
  rw [AuthLogonChallengeRequest.tryFrom]
  rw [if_neg (by simp only [AUTH_LOGON_CHALLENGE_REQUEST_LEN]; omega)]
  refine ⟨_, rfl, ?_, ?_, rfl, rfl⟩
  · rw [beU32At, drop_take4_eq_getD 24 body (by omega)]
    simp only [List.reverse_cons, List.reverse_nil, List.nil_append, List.cons_append,
      natFromBytesLE, u32_from_le_bytes]
    ring
  · rw [beU32At, drop_take4_eq_getD 28 body (by omega)]
    simp only [List.reverse_cons, List.reverse_nil, List.nil_append, List.cons_append,
      natFromBytesLE, u32_from_be_bytes]
    ring

theorem auth_logon_challenge_request_amended_witness :
    AUTH_LOGON_CHALLENGE_REQUEST_LEN < (List.replicate 34 (0 : ℕ)).length ∧
    ∃ r, AuthLogonChallengeRequest.tryFrom ⟨.cmdRealmList, List.replicate 34 0⟩ = .ok r ∧
      r.timezone_bias = beU32At (List.replicate 34 0) 24 ∧
      r.ip = beU32At (List.replicate 34 0) 28 ∧
      r.account_name_len = (List.replicate 34 (0 : ℕ)).getD 32 0 ∧
      r.account_name = (List.replicate 34 (0 : ℕ)).drop 33 :=
  ⟨by decide,
    auth_logon_challenge_request_amended .cmdRealmList (List.replicate 34 0) (by decide)⟩

theorem lruMin_mem : ∀ {l : List CacheEntry} {m : CacheEntry}, lruMin l = some m → m ∈ l := by
  intro l
  induction l with
  | nil => intro m h; simp [lruMin] at h
  | cons e rest ih =>
      intro m h
      rw [lruMin] at h
      cases hr : lruMin rest with
      | none => rw [hr] at h; simp at h; simp [h]
      | some m' =>
          rw [hr] at h
          by_cases hle : e.lastUsed ≤ m'.lastUsed
          · simp [hle] at h; simp [h]
          · simp [hle] at h
            subst h
            exact List.mem_cons_of_mem e (ih hr)

theorem lruMin_eq_none : ∀ {l : List CacheEntry}, lruMin l = none → l = [] := by
  intro l h
  cases l with
  | nil => rfl
  | cons e rest =>
      rw [lruMin] at h
      cases h' : lruMin rest with
      | none => rw [h'] at h; simp at h
      | some m =>
          rw [h'] at h
          by_cases hle : e.lastUsed ≤ m.lastUsed <;> simp [hle] at h

theorem lruMin_le : ∀ {l : List CacheEntry} {m : CacheEntry}, lruMin l = some m →
    ∀ e ∈ l, m.lastUsed ≤ e.lastUsed := by
  intro l
  induction l with
  | nil => intro m h; simp [lruMin] at h
  | cons e rest ih =>
      intro m h f hf
      rw [lruMin] at h
      cases hr : lruMin rest with
      | none =>
          rw [hr] at h
          simp at h
          subst h
          have : rest = [] := lruMin_eq_none hr
          subst this
          rcases List.mem_cons.mp hf with h1 | h1
          · rw [h1]
          · simp at h1
      | some m' =>
          rw [hr] at h
          by_cases hle : e.lastUsed ≤ m'.lastUsed
          · simp [hle] at h
            subst h
            rcases List.mem_cons.mp hf with h1 | h1
            · rw [h1]
            · exact le_trans hle (ih hr f h1)
          · simp [hle] at h
            subst h
            rcases List.mem_cons.mp hf with h1 | h1
            · rw [h1]; omega
            · exact ih hr f h1

theorem lruMin_isSome {l : List CacheEntry} (h : l ≠ []) : ∃ m, lruMin l = some m := by
  cases l with
  | nil => simp at h
  | cons e rest =>
      rw [lruMin]
      cases lruMin rest with
      | none => exact ⟨e, rfl⟩
      | some m => by_cases hle : e.lastUsed ≤ m.lastUsed <;> simp [hle]

theorem cacheEvictLru_capacity (c : StmtCache) : (cacheEvictLru c).capacity = c.capacity := by
  rw [cacheEvictLru]; cases lruMin c.entries <;> rfl

theorem cacheEvictLru_clock (c : StmtCache) : (cacheEvictLru c).clock = c.clock := by
  rw [cacheEvictLru]; cases lruMin c.entries <;> rfl

theorem cacheInsert_capacity (sql : ℕ) (c : StmtCache) :
    (cacheInsert sql c).capacity = c.capacity := by
  rw [cacheInsert]
  split_ifs with h
  · simp [cacheEvictLru_capacity]
  · rfl

theorem cacheGet_capacity (sql : ℕ) (c : StmtCache) : (cacheGet sql c).capacity = c.capacity := by
  rw [cacheGet]; split_ifs <;> rfl

theorem cacheGet_entries_length (sql : ℕ) (c : StmtCache) :
    (cacheGet sql c).entries.length = c.entries.length := by
  rw [cacheGet]; split_ifs <;> simp

theorem cacheEvictLru_length_lt {c : StmtCache} (h : c.entries ≠ []) :
    (cacheEvictLru c).entries.length < c.entries.length := by
  obtain ⟨m, hm⟩ := lruMin_isSome h
  rw [cacheEvictLru, hm]
  simp only
  rw [List.length_filter_lt_length_iff_exists]
  exact ⟨m, lruMin_mem hm, by simp⟩

theorem cacheInsert_length {C : ℕ} (hC : 1 ≤ C) {c : StmtCache} (hcap : c.capacity = C)
    (h : c.entries.length ≤ C) (sql : ℕ) : (cacheInsert sql c).entries.length ≤ C := by
  rw [cacheInsert]
  simp only [List.length_append, List.length_cons, List.length_nil]
  split_ifs with hfull
  · have hne : c.entries ≠ [] := by
      intro hnil
      rw [hnil] at hfull
      simp at hfull
      omega
    have hlt := cacheEvictLru_length_lt hne
    have hfle := List.length_filter_le (fun e => !(e.sql == sql)) (cacheEvictLru c).entries
    omega
  · have hfle := List.length_filter_le (fun e => !(e.sql == sql)) c.entries
    omega

theorem cacheRun_size_le (C : ℕ) (hC : 1 ≤ C) (ops : List CacheOp) :
    (cacheRun C ops).entries.length ≤ C := by
  suffices h : ∀ (ops : List CacheOp) (c : StmtCache), c.capacity = C → c.entries.length ≤ C →
      (ops.foldl cacheStep c).capacity = C ∧ (ops.foldl cacheStep c).entries.length ≤ C by
    exact (h ops (cacheNew C) rfl (by simp [cacheNew])).2
  intro ops
  induction ops with
  | nil => intro c h1 h2; exact ⟨h1, h2⟩
  | cons op rest ih =>
      intro c h1 h2
      cases op with
      | get sql =>
          apply ih
          · exact (cacheGet_capacity sql c).trans h1
          · exact (cacheGet_entries_length sql c).trans_le h2
      | insert sql =>
          apply ih
          · exact (cacheInsert_capacity sql c).trans h1
          · exact cacheInsert_length hC h1 h2 sql

theorem cacheInsert_evicts_lru {c : StmtCache} {sql : ℕ}
    (hC : 1 ≤ c.capacity) (hfull : c.entries.length = c.capacity)
    (hnew : ∀ e ∈ c.entries, e.sql ≠ sql) :
    ∃ lru, lruMin c.entries = some lru ∧ lru ∈ c.entries ∧
      (∀ e ∈ c.entries, lru.lastUsed ≤ e.lastUsed) ∧
      ∀ k, (∃ e ∈ (cacheInsert sql c).entries, e.sql = k)
        ↔ (k = sql ∨ ((∃ e ∈ c.entries, e.sql = k) ∧ k ≠ lru.sql)) := by
  have hne : c.entries ≠ [] := by
    intro h
    rw [h] at hfull
    simp at hfull
    omega
  obtain ⟨m, hm⟩ := lruMin_isSome hne
  refine ⟨m, hm, lruMin_mem hm, lruMin_le hm, ?_⟩
  intro k
  rw [cacheInsert]
  simp only [if_pos (le_of_eq hfull.symm), cacheEvictLru, hm]
  constructor
  · rintro ⟨e, he, rfl⟩
    rcases List.mem_append.mp he with h1 | h1
    · right
      have h2 := List.mem_filter.mp h1
      have h3 := List.mem_filter.mp h2.1
      exact ⟨⟨e, h3.1, rfl⟩, by simpa using h3.2⟩
    · left
      simp at h1
      rw [h1]
  · rintro (rfl | ⟨⟨e, he, rfl⟩, hk⟩)
    · exact ⟨_, List.mem_append_right _ (List.mem_singleton_self _), rfl⟩
    · refine ⟨e, List.mem_append_left _ ?_, rfl⟩
      apply List.mem_filter.mpr
      refine ⟨List.mem_filter.mpr ⟨he, ?_⟩, ?_⟩
      · simpa using hk
      · simpa using hnew e he

theorem lruMin_pairwise_head {e : CacheEntry} {t : List CacheEntry}
    (hpw : ((e :: t).map (·.lastUsed)).Pairwise (· < ·)) :
    lruMin (e :: t) = some e := by
  rw [lruMin]
  cases hr : lruMin t with
  | none => rfl
  | some m =>
      have hm := lruMin_mem hr
      have hpw' : ∀ x ∈ t, e.lastUsed < x.lastUsed := by
        have h := (List.pairwise_cons.mp
          (show List.Pairwise (· < ·) (e.lastUsed :: t.map (·.lastUsed)) by simpa using hpw)).1
        intro x hx
        exact h x.lastUsed (List.mem_map_of_mem _ hx)
      simp [le_of_lt (hpw' m hm)]

theorem cacheInsert_shape {c : StmtCache} {k : ℕ}
    (hnotfull : ¬ c.capacity ≤ c.entries.length)
    (hfk : c.entries.filter (fun e => !(e.sql == k)) = c.entries) :
    (cacheInsert k c).entries = c.entries ++ [⟨k, c.clock, 1⟩] ∧
    (cacheInsert k c).clock = c.clock + 1 ∧
    (cacheInsert k c).capacity = c.capacity := by
  rw [cacheInsert]
  simp only [if_neg hnotfull, hfk]
  simp

theorem cacheInsert_full_shape {c : StmtCache} {e₀ : CacheEntry} {t : List CacheEntry} {k : ℕ}
    (hent : c.entries = e₀ :: t)
    (hfull : c.capacity ≤ c.entries.length)
    (hmin : lruMin c.entries = some e₀)
    (hf0 : t.filter (fun e => !(e.sql == e₀.sql)) = t)
    (hfk : t.filter (fun e => !(e.sql == k)) = t) :
    (cacheInsert k c).entries = t ++ [⟨k, c.clock, 1⟩] ∧
    (cacheInsert k c).clock = c.clock + 1 ∧
    (cacheInsert k c).capacity = c.capacity := by
  rw [cacheInsert]
  simp only [if_pos hfull, cacheEvictLru, hmin]
  rw [hent]
  simp only [List.filter_cons]
  norm_num
  intro a ha
  have h1 := List.filter_eq_self.mp hfk a ha
  have h2 := List.filter_eq_self.mp hf0 a ha
  constructor
  · simpa using h1
  · simpa using h2

theorem cacheInsert_inv {C : ℕ} (hC : 1 ≤ C) {done : List ℕ} {c : StmtCache} {k : ℕ}
    (hnd : (done ++ [k]).Nodup) (hinv : CacheInv C done c) :
    CacheInv C (done ++ [k]) (cacheInsert k c) := by
  obtain ⟨hcap, hkeys, hpw, hclk⟩ := hinv
  have hk : k ∉ done := by
    have := (List.nodup_append.mp hnd).2.2
    intro hmem
    exact this hmem (List.mem_singleton_self k)
  have hlen : c.entries.length = done.length - (done.length - C) := by
    have h1 : (c.entries.map (·.sql)).length = c.entries.length := List.length_map _ _
    rw [← h1, hkeys, List.length_drop]
  have hfresh : ∀ e ∈ c.entries, e.sql ≠ k := by
    intro e he hek
    apply hk
    have hmm : e.sql ∈ c.entries.map (·.sql) := List.mem_map_of_mem _ he
    rw [hkeys] at hmm
    rw [← hek]
    exact List.mem_of_mem_drop hmm
  have hfilterk : c.entries.filter (fun e => !(e.sql == k)) = c.entries :=
    List.filter_eq_self.mpr fun e he => by simpa using hfresh e he
  have hnewlen : (done ++ [k]).length - C = done.length + 1 - C := by
    simp
  by_cases hfull : C ≤ c.entries.length
  · -- at capacity: the head is the LRU and is evicted
    have hlenC : c.entries.length = C := by omega
    have hdC : C ≤ done.length := by omega
    have hne : c.entries ≠ [] := by
      intro h
      rw [h] at hlenC
      simp at hlenC
      omega
    obtain ⟨e₀, t, hent⟩ : ∃ e₀ t, c.entries = e₀ :: t := by
      cases hcase : c.entries with
      | nil => exact absurd hcase hne
      | cons a b => exact ⟨a, b, rfl⟩
    rw [hent] at hpw hclk hkeys
    have hmin : lruMin c.entries = some e₀ := by rw [hent]; exact lruMin_pairwise_head hpw
    have hndk : ((e₀ :: t).map (·.sql)).Nodup := by
      rw [hkeys]
      exact ((List.nodup_append.mp hnd).1).sublist (List.drop_sublist _ _)
    have hndk' : (∀ x ∈ t, ¬ x.sql = e₀.sql) ∧ (t.map (·.sql)).Nodup := by
      simpa using hndk
    have hf0 : t.filter (fun e => !(e.sql == e₀.sql)) = t := by
      apply List.filter_eq_self.mpr
      intro e he
      simpa using hndk'.1 e he
    have hfkt : t.filter (fun e => !(e.sql == k)) = t := by
      apply List.filter_eq_self.mpr
      intro e he
      simpa using hfresh e (by rw [hent]; exact List.mem_cons_of_mem _ he)
    obtain ⟨hent', hclock', hcap'⟩ :=
      cacheInsert_full_shape hent (by rw [hcap]; exact hfull) hmin hf0 hfkt
    refine ⟨hcap'.trans hcap, ?_, ?_, ?_⟩
    · -- keys
      rw [hent', hnewlen]
      have h1 : (e₀ :: t).map (·.sql) = e₀.sql :: t.map (·.sql) := rfl
      have h2 : t.map (·.sql) = done.drop (done.length - C + 1) := by
        have := congrArg List.tail hkeys
        simpa [List.tail_drop] using this
      have h3 : done.length - C + 1 = done.length + 1 - C := by omega
      have h4 : done.length + 1 - C ≤ done.length := by omega
      have h5 : done.length + 1 - C - done.length = 0 := by omega
      rw [List.map_append, h2, h3, List.drop_append_eq_append_drop, h5, List.drop_zero]
      simp
    · -- pairwise
      rw [hent']
      rw [List.map_append]
      apply List.pairwise_append.mpr
      refine ⟨(List.pairwise_cons.mp (by simpa using hpw)).2, by simp, ?_⟩
      intro a ha b hb
      simp at hb
      subst hb
      simp at ha
      obtain ⟨e, he, rfl⟩ := ha
      exact hclk e (List.mem_cons_of_mem _ he)
    · -- clock bound
      intro e he
      rw [hent'] at he
      rw [hclock']
      rcases List.mem_append.mp he with h1 | h1
      · have := hclk e (List.mem_cons_of_mem _ h1)
        omega
      · simp at h1
        rw [h1]
        simp
  · -- below capacity: plain append
    have hdlt : done.length < C := by omega
    obtain ⟨hent', hclock', hcap'⟩ :=
      cacheInsert_shape (by rw [hcap]; exact hfull) hfilterk
    refine ⟨hcap'.trans hcap, ?_, ?_, ?_⟩
    · rw [hent', hnewlen]
      have h0 : done.length - C = 0 := by omega
      have h1 : done.length + 1 - C = 0 := by omega
      rw [List.map_append, hkeys, h0, h1, List.drop_zero, List.drop_zero]
      simp
    · rw [hent', List.map_append]
      apply List.pairwise_append.mpr
      refine ⟨hpw, by simp, ?_⟩
      intro a ha b hb
      simp at hb
      subst hb
      simp at ha
      obtain ⟨e, he, rfl⟩ := ha
      exact hclk e he
    · intro e he
      rw [hent'] at he
      rw [hclock']
      rcases List.mem_append.mp he with h1 | h1
      · have := hclk e h1
        omega
      · simp at h1
        rw [h1]
        simp

theorem cacheRun_inserts_inv (C : ℕ) (hC : 1 ≤ C) (sqls : List ℕ) (hns : sqls.Nodup) :
    CacheInv C sqls (cacheRun C (sqls.map CacheOp.insert)) := by
  suffices h : ∀ (rest done : List ℕ) (c : StmtCache), (done ++ rest).Nodup →
      CacheInv C done c →
      CacheInv C (done ++ rest) ((rest.map CacheOp.insert).foldl cacheStep c) by
    have hbase : CacheInv C [] (cacheNew C) := by
      refine ⟨rfl, by simp [cacheNew], by simp [cacheNew], by simp [cacheNew]⟩
    have := h sqls [] (cacheNew C) (by simpa using hns) hbase
    simpa [cacheRun] using this
  intro rest
  induction rest with
  | nil => intro done c h hinv; simpa using hinv
  | cons r rs ih =>
      intro done c h hinv
      have hr : (done ++ [r]).Nodup := by
        have h' : (done ++ [r]) ++ rs = done ++ r :: rs := by simp
        have := h
        rw [← h'] at this
        exact (List.nodup_append.mp this).1
      have h2 : ((done ++ [r]) ++ rs).Nodup := by
        have h' : (done ++ [r]) ++ rs = done ++ r :: rs := by simp
        rw [h']
        exact h
      have hinv2 := cacheInsert_inv hC hr hinv
      have hres := ih (done ++ [r]) (cacheInsert r c) h2 hinv2
      have h' : (done ++ [r]) ++ rs = done ++ r :: rs := by simp
      rw [h'] at hres
      simpa using hres

theorem cacheRun_distinct_inserts (C : ℕ) (hC : 1 ≤ C) (sqls : List ℕ)
    (hns : sqls.Nodup) (hCN : C < sqls.length) :
    (cacheRun C (sqls.map CacheOp.insert)).entries.length = C ∧
    (∀ k ∈ sqls.take (sqls.length - C),
      ¬ ∃ e ∈ (cacheRun C (sqls.map CacheOp.insert)).entries, e.sql = k) ∧
    (∀ k ∈ sqls.drop (sqls.length - C),
      ∃ e ∈ (cacheRun C (sqls.map CacheOp.insert)).entries, e.sql = k) := by
  obtain ⟨hcap, hkeys, hpw, hclk⟩ := cacheRun_inserts_inv C hC sqls hns
  have hdisj : ∀ k, k ∈ sqls.take (sqls.length - C) → k ∈ sqls.drop (sqls.length - C) → False := by
    intro k h1 h2
    have hsplit : sqls.take (sqls.length - C) ++ sqls.drop (sqls.length - C) = sqls :=
      List.take_append_drop _ _
    have := hns
    rw [← hsplit] at this
    exact (List.nodup_append.mp this).2.2 h1 h2
  refine ⟨?_, ?_, ?_⟩
  · have h1 : (cacheRun C (sqls.map CacheOp.insert)).entries.length
        = ((cacheRun C (sqls.map CacheOp.insert)).entries.map (·.sql)).length :=
      (List.length_map _ _).symm
    rw [h1, hkeys, List.length_drop]
    omega
  · intro k hk ⟨e, he, hek⟩
    apply hdisj k hk
    rw [← hek]
    rw [← hkeys]
    exact List.mem_map_of_mem _ he
  · intro k hk
    rw [← hkeys] at hk
    obtain ⟨e, he, hek⟩ := List.mem_map.mp hk
    exact ⟨e, he, hek⟩

/-- C6 as stated fails for capacity 0: one insert into an empty cache of
capacity 0 evicts nothing (the cache is empty) and then inserts, so the size
becomes 1 > 0. -/
theorem cache_size_cex :
    ¬ ((cacheRun 0 [CacheOp.insert 1]).entries.length ≤ 0) := by
  have h : (cacheRun 0 [CacheOp.insert 1]).entries.length = 1 := rfl
  omega

/-- C6 (amended). For every capacity C ≥ 1: the cache size stays ≤ C after
every sequence of get/insert operations; an insert of a fresh key into a full
cache evicts exactly the entry with minimal `last_used` (key-wise, the new key
replaces the LRU key and every other key survives); and after N > C inserts of
distinct keys into an empty cache the size is exactly C, with the N−C
least-recently-used keys absent and the rest present. -/
theorem cache_lru_invariants (C : ℕ) (hC : 1 ≤ C) :
    (∀ ops : List CacheOp, (cacheRun C ops).entries.length ≤ C) ∧
    (∀ (c : StmtCache) (sql : ℕ), c.capacity = C → c.entries.length = C →
      (∀ e ∈ c.entries, e.sql ≠ sql) →
      ∃ lru, lruMin c.entries = some lru ∧ lru ∈ c.entries ∧
        (∀ e ∈ c.entries, lru.lastUsed ≤ e.lastUsed) ∧
        ∀ k, (∃ e ∈ (cacheInsert sql c).entries, e.sql = k)
          ↔ (k = sql ∨ ((∃ e ∈ c.entries, e.sql = k) ∧ k ≠ lru.sql))) ∧
    (∀ sqls : List ℕ, sqls.Nodup → C < sqls.length →
      (cacheRun C (sqls.map CacheOp.insert)).entries.length = C ∧
      (∀ k ∈ sqls.take (sqls.length - C),
        ¬ ∃ e ∈ (cacheRun C (sqls.map CacheOp.insert)).entries, e.sql = k) ∧
      (∀ k ∈ sqls.drop (sqls.length - C),
        ∃ e ∈ (cacheRun C (sqls.map CacheOp.insert)).entries, e.sql = k)) :=
  ⟨cacheRun_size_le C hC,
   fun c sql hcap hfull hnew =>
     cacheInsert_evicts_lru (by rw [hcap]; exact hC) (hfull.trans hcap.symm) hnew,
   fun sqls hns hCN => cacheRun_distinct_inserts C hC sqls hns hCN⟩

theorem cache_lru_invariants_witness :
    (1 ≤ 1) ∧
    ((cacheRun 1 [CacheOp.insert 1, CacheOp.insert 2]).entries.length ≤ 1) ∧
    ((cacheRun 1 (([1, 2] : List ℕ).map CacheOp.insert)).entries.length = 1) :=
  ⟨le_refl 1,
   (cache_lru_invariants 1 (le_refl 1)).1 [CacheOp.insert 1, CacheOp.insert 2],
   ((cache_lru_invariants 1 (le_refl 1)).2.2 [1, 2] (by decide) (by decide)).1⟩

theorem migrateUpRun_eq (ms : List Migration) (db : List (ℤ × String)) :
    migrateUpRun ms db
      = (ms.map (·.version), db ++ ms.map fun m => (m.version, m.name)) := by
  induction ms generalizing db with
  | nil => simp [migrateUpRun]
  | cons m rest ih =>
      simp [migrateUpRun, ih, applyMigration]

theorem migrateDownRun_ok (ms : List Migration) (db : List (ℤ × String))
    (h : ∀ m ∈ ms, m.down ≠ none) :
    migrateDownRun ms db
      = (.ok (ms.map (·.version)),
         db.filter fun r => !((ms.map (·.version)).contains r.1)) := by
  induction ms generalizing db with
  | nil => simp [migrateDownRun]
  | cons m rest ih =>
      have hm : m.down ≠ none := h m (List.mem_cons_self m rest)
      obtain ⟨d, hd⟩ : ∃ d, m.down = some d := by
        cases hcase : m.down with
        | none => exact absurd hcase hm
        | some d => exact ⟨d, rfl⟩
      rw [migrateDownRun, revertMigration, hd]
      simp only
      rw [ih _ fun m' hm' => h m' (List.mem_cons_of_mem _ hm')]
      simp only [Prod.mk.injEq, List.map_cons]
      refine ⟨trivial, ?_⟩
      rw [List.filter_filter]
      apply List.filter_congr
      intro r _
      by_cases hr : r.1 = m.version <;>
        simp [hr, List.contains_cons, Bool.not_or, Bool.and_comm]

theorem migrateDownRun_fail (pre : List Migration) (m : Migration) (post : List Migration)
    (db : List (ℤ × String)) (hpre : ∀ m' ∈ pre, m'.down ≠ none) (hm : m.down = none) :
    ∃ e, migrateDownRun (pre ++ m :: post) db
      = (.error e,
         db.filter fun r => !((pre.map (·.version)).contains r.1)) := by
  induction pre generalizing db with
  | nil =>
      refine ⟨"has no down script", ?_⟩
      rw [List.nil_append, migrateDownRun, revertMigration, hm]
      simp
  | cons p rest ih =>
      have hp : p.down ≠ none := hpre p (List.mem_cons_self p rest)
      obtain ⟨d, hd⟩ : ∃ d, p.down = some d := by
        cases hcase : p.down with
        | none => exact absurd hcase hp
        | some d => exact ⟨d, rfl⟩
      obtain ⟨e, he⟩ := ih (db.filter fun r => !(r.1 == p.version))
        (fun m' hm' => hpre m' (List.mem_cons_of_mem _ hm'))
      refine ⟨e, ?_⟩
      rw [List.cons_append, migrateDownRun, revertMigration, hd]
      simp only
      rw [he]
      simp only [List.map_cons]
      congr 1
      rw [List.filter_filter]
      apply List.filter_congr
      intro r _
      by_cases hr : r.1 = p.version <;>
        simp [hr, List.contains_cons, Bool.not_or, Bool.and_comm]

/-- C7. `migrate_to(target)` with registry sorted by version: when
`target ≥ current` it applies exactly the registered migrations with
`current < v ≤ target`, in ascending version order, appending their records;
otherwise it reverts exactly the registered migrations with
`target < v ≤ current` in descending order using their down scripts, deleting
their records, and reverting a migration with no down script returns an error
before touching that migration's record. -/
theorem migrate_to_c7 (reg : List Migration) (db : List (ℤ × String)) (target current : ℤ)
    (hsorted : (reg.map (·.version)).Pairwise (· < ·))
    (hcur : current = (currentVersion db).getD 0) :
    (current ≤ target →
      ∃ rep, migrate_to reg db target
          = (.ok rep,
             db ++ (pendingMigrations reg current target).map fun m => (m.version, m.name)) ∧
        rep.applied = (pendingMigrations reg current target).map (·.version) ∧
        rep.applied.Pairwise (· < ·) ∧
        rep.reverted = []) ∧
    (target < current →
      ((∀ m ∈ revertTargets reg current target, m.down ≠ none) →
        ∃ rep, migrate_to reg db target
            = (.ok rep, db.filter fun r =>
                !(((revertTargets reg current target).map (·.version)).contains r.1)) ∧
          rep.reverted = (revertTargets reg current target).map (·.version) ∧
          rep.reverted.Pairwise (· > ·) ∧
          rep.applied = []) ∧
      (∀ pre m post, revertTargets reg current target = pre ++ m :: post →
        (∀ m' ∈ pre, m'.down ≠ none) → m.down = none →
        ∃ e, migrate_to reg db target
            = (.error e, db.filter fun r => !((pre.map (·.version)).contains r.1)) ∧
          ∀ rcd ∈ db, rcd.1 = m.version →
            rcd ∈ (db.filter fun r => !((pre.map (·.version)).contains r.1)))) := by
  subst hcur
  have hpw : ∀ cur tgt, ((pendingMigrations reg cur tgt).map (·.version)).Pairwise (· < ·) :=
    fun cur tgt => hsorted.sublist ((List.filter_sublist _).map _)
  have hrw : ∀ cur tgt,
      (((reg.filter fun m => decide (m.version ≤ cur) && decide (tgt < m.version)).map
        (·.version))).Pairwise (· < ·) :=
    fun cur tgt => hsorted.sublist ((List.filter_sublist _).map _)
  constructor
  · intro hle
    rw [migrate_to]
    simp only [if_pos hle, migrateUpRun_eq]
    exact ⟨_, rfl, rfl, hpw _ _, rfl⟩
  · intro hgt
    constructor
    · intro hdowns
      rw [migrate_to]
      simp only [if_neg (by omega : ¬ (currentVersion db).getD 0 ≤ target)]
      rw [migrateDownRun_ok _ _ hdowns]
      refine ⟨_, rfl, rfl, ?_, rfl⟩
      rw [revertTargets, List.map_reverse]
      rw [List.pairwise_reverse]
      exact hrw _ _
    · intro pre m post hsplit hpre hm
      rw [migrate_to]
      simp only [if_neg (by omega : ¬ (currentVersion db).getD 0 ≤ target)]
      rw [hsplit]
      obtain ⟨e, he⟩ := migrateDownRun_fail pre m post db hpre hm
      rw [he]
      refine ⟨e, rfl, ?_⟩
      intro rcd hrcd hv
      apply List.mem_filter.mpr
      refine ⟨hrcd, ?_⟩
      have hnodup : ((revertTargets reg ((currentVersion db).getD 0) target).map
          (·.version)).Pairwise (· > ·) := by
        rw [revertTargets, List.map_reverse, List.pairwise_reverse]
        exact hrw _ _
      rw [hsplit] at hnodup
      simp only [List.map_append, List.map_cons] at hnodup
      have hmm := List.pairwise_append.mp hnodup
      have hne : ∀ v ∈ pre.map (·.version), v ≠ m.version := by
        intro v hv'
        have := hmm.2.2 v hv' m.version (List.mem_cons_self _ _)
        omega
      simp only [Bool.not_eq_true']
      rw [List.contains_eq_any_beq]
      rw [List.any_eq_false]
      intro v hv'
      have := hne v hv'
      rw [hv]
      simpa using fun hcontra => this (by rw [hcontra])

theorem migrate_to_c7_witness :
    ((([⟨1, "a", "u1", some "d1"⟩, ⟨2, "b", "u2", none⟩] : List Migration).map
      (·.version)).Pairwise (· < ·)) ∧
    ((0 : ℤ) ≤ 2) ∧
    ∃ rep, migrate_to [⟨1, "a", "u1", some "d1"⟩, ⟨2, "b", "u2", none⟩] [] 2
        = (.ok rep,
           [] ++ (pendingMigrations
              [⟨1, "a", "u1", some "d1"⟩, ⟨2, "b", "u2", none⟩] 0 2).map
                fun m => (m.version, m.name)) ∧
      rep.applied = (pendingMigrations
        [⟨1, "a", "u1", some "d1"⟩, ⟨2, "b", "u2", none⟩] 0 2).map (·.version) ∧
      rep.applied.Pairwise (· < ·) ∧
      rep.reverted = [] :=
  ⟨by decide, by decide,
    (migrate_to_c7 [⟨1, "a", "u1", some "d1"⟩, ⟨2, "b", "u2", none⟩] [] 2 0
      (by decide) rfl).1 (by decide)⟩

/-- C8 as stated fails: a failing send aborts the loop, so the second
connection is never attempted. -/
theorem broadcast_cex :
    (broadcast_all [⟨0, false⟩, ⟨1, true⟩]).1 ≠ [0, 1] := by decide

/-- C8 (amended). Broadcast is sequential and aborts at the first send
failure: when every eligible send succeeds, all three primitives deliver to
every eligible connection in iteration order; but as soon as one eligible send
fails, its error is returned and the eligible connections after it are not
attempted. -/
theorem broadcast_aborts_on_failure :
    (∀ conns : List ConnectionHandle, (∀ c ∈ conns, c.sendOk = true) →
        broadcast_all conns = (conns.map (·.id), .ok ())) ∧
    (∀ pre (c : ConnectionHandle) post, (∀ c' ∈ pre, c'.sendOk = true) →
        c.sendOk = false →
        broadcast_all (pre ++ c :: post) = (pre.map (·.id) ++ [c.id], .error c.id)) ∧
    (∀ sid (conns : List ConnectionHandle),
        (∀ c ∈ conns, c.id ≠ sid → c.sendOk = true) →
        broadcast_except sid conns
          = ((conns.filter fun c => !(c.id == sid)).map (·.id), .ok ())) ∧
    (∀ sid pre (c : ConnectionHandle) post,
        (∀ c' ∈ pre, c'.id ≠ sid → c'.sendOk = true) → c.id ≠ sid → c.sendOk = false →
        broadcast_except sid (pre ++ c :: post)
          = ((pre.filter fun c => !(c.id == sid)).map (·.id) ++ [c.id], .error c.id)) ∧
    (∀ f (conns : List ConnectionHandle), (∀ c ∈ conns, f c = true → c.sendOk = true) →
        broadcast_filter f conns = ((conns.filter f).map (·.id), .ok ())) ∧
    (∀ f pre (c : ConnectionHandle) post,
        (∀ c' ∈ pre, f c' = true → c'.sendOk = true) → f c = true → c.sendOk = false →
        broadcast_filter f (pre ++ c :: post)
          = ((pre.filter f).map (·.id) ++ [c.id], .error c.id)) := by
  refine ⟨?_, ?_, ?_, ?_, ?_, ?_⟩
  · intro conns h
    induction conns with
    | nil => rfl
    | cons c rest ih =>
        rw [broadcast_all]
        rw [if_pos (h c (List.mem_cons_self _ _))]
        rw [ih fun c' hc' => h c' (List.mem_cons_of_mem _ hc')]
        rfl
  · intro pre c post hpre hc
    induction pre with
    | nil => rw [List.nil_append, broadcast_all, hc]; rfl
    | cons p rest ih =>
        rw [List.cons_append, broadcast_all,
          if_pos (hpre p (List.mem_cons_self _ _)),
          ih fun c' hc' => hpre c' (List.mem_cons_of_mem _ hc')]
        rfl
  · intro sid conns h
    induction conns with
    | nil => rfl
    | cons c rest ih =>
        rw [broadcast_except]
        by_cases hid : c.id = sid
        · rw [if_pos hid, ih fun c' hc' hne => h c' (List.mem_cons_of_mem _ hc') hne,
            List.filter_cons]
          simp [hid]
        · rw [if_neg hid, if_pos (h c (List.mem_cons_self _ _) hid),
            ih fun c' hc' hne => h c' (List.mem_cons_of_mem _ hc') hne, List.filter_cons]
          simp [hid]
  · intro sid pre c post hpre hcid hc
    induction pre with
    | nil =>
        rw [List.nil_append, broadcast_except, if_neg hcid, hc]
        rfl
    | cons p rest ih =>
        rw [List.cons_append, broadcast_except]
        by_cases hid : p.id = sid
        · rw [if_pos hid, ih fun c' hc' hne => hpre c' (List.mem_cons_of_mem _ hc') hne,
            List.filter_cons]
          simp [hid]
        · rw [if_neg hid, if_pos (hpre p (List.mem_cons_self _ _) hid),
            ih fun c' hc' hne => hpre c' (List.mem_cons_of_mem _ hc') hne, List.filter_cons]
          simp [hid]
  · intro f conns h
    induction conns with
    | nil => rfl
    | cons c rest ih =>
        rw [broadcast_filter]
        by_cases hf : f c = true
        · rw [if_pos hf, if_pos (h c (List.mem_cons_self _ _) hf),
            ih fun c' hc' hfc => h c' (List.mem_cons_of_mem _ hc') hfc, List.filter_cons]
          simp [hf]
        · rw [if_neg hf, ih fun c' hc' hfc => h c' (List.mem_cons_of_mem _ hc') hfc,
            List.filter_cons]
          simp [hf]
  · intro f pre c post hpre hfc hc
    induction pre with
    | nil =>
        rw [List.nil_append, broadcast_filter, if_pos hfc, hc]
        rfl
    | cons p rest ih =>
        rw [List.cons_append, broadcast_filter]
        by_cases hf : f p = true
        · rw [if_pos hf, if_pos (hpre p (List.mem_cons_self _ _) hf),
            ih fun c' hc' hfc' => hpre c' (List.mem_cons_of_mem _ hc') hfc', List.filter_cons]
          simp [hf]
        · rw [if_neg hf, ih fun c' hc' hfc' => hpre c' (List.mem_cons_of_mem _ hc') hfc',
            List.filter_cons]
          simp [hf]

theorem broadcast_aborts_on_failure_witness :
    ((∀ c ∈ ([⟨1, true⟩] : List ConnectionHandle), c.sendOk = true) ∧
      (⟨2, false⟩ : ConnectionHandle).sendOk = false) ∧
    broadcast_all ([⟨1, true⟩] ++ (⟨2, false⟩ : ConnectionHandle) :: [⟨3, true⟩])
      = (([⟨1, true⟩] : List ConnectionHandle).map (·.id) ++ [2], .error 2) :=
  ⟨⟨by decide, rfl⟩,
    broadcast_aborts_on_failure.2.1 [⟨1, true⟩] ⟨2, false⟩ [⟨3, true⟩] (by decide) rfl⟩

/-- C9. Once the shutdown flag is set, every call to `acquire` returns a
`Shutdown` error immediately and leaves the pool state untouched: no semaphore
permit is taken, no idle connection is popped, and no connection is created. -/
theorem acquire_after_shutdown (s : PoolState) (pg co : Bool)
    (h : s.isShutdown = true) :
    acquire s pg co = (.error .shutdown, s) ∧
    acquire (shutdownStart s) pg co = (.error .shutdown, shutdownStart s) := by
  constructor
  · rw [acquire, if_pos h]
  · rw [acquire]
    rw [if_pos (show (shutdownStart s).isShutdown = true from rfl)]

theorem acquire_after_shutdown_witness :
    (PoolState.mk true 5 [7] 2 3).isShutdown = true ∧
    acquire (PoolState.mk true 5 [7] 2 3) true true
      = (.error .shutdown, PoolState.mk true 5 [7] 2 3) :=
  ⟨rfl, (acquire_after_shutdown (PoolState.mk true 5 [7] 2 3) true true rfl).1⟩
